import Mathlib

/-!
Verification of the jsonclip core: the path extractor (`extractPath`), the
diagnosing parser wrapper (`safeParse`), and the color-disabled formatter
round trip.  The JavaScript source in `src/index.js` is embedded shallowly:
strings are lists of characters, JavaScript values parsed from JSON are the
inductive type `Json`, the absent value `undefined` is `Option.none`, and a
thrown exception is an `Except.error`.  The host primitives `JSON.parse` and
`JSON.stringify` are not part of the repository's source; they are modelled
from the specification where a claim depends on them, and each such
definition says so in its doc comment.
-/

namespace Jsonclip

/-- JSON values as produced by parsing, per the spec's data model: null,
booleans, numbers, strings, ordered sequences, and mappings that preserve
insertion order.  Numbers are modelled as integers: the host's IEEE-754
doubles are outside the embedding.  Text is carried as `List Char`. -/
inductive Json : Type where
  | null : Json
  | bool (b : Bool) : Json
  | num (n : Int) : Json
  | str (s : List Char) : Json
  | arr (items : List Json) : Json
  | obj (fields : List (List Char × Json)) : Json

/-- The three path delimiters of the split pattern `/\.|\[|\]/`. -/
def isDelim (c : Char) : Bool := c = '.' || c = '[' || c = ']'

/-- The regex test `/^\d+$/` on a token: nonempty and all ASCII digits. -/
def digitsOnly (t : List Char) : Bool := !t.isEmpty && t.all Char.isDigit

/-- Numeric value of an ASCII digit character. -/
def digitVal (c : Char) : Nat := c.toNat - 48

/-- `parseInt` on a string of ASCII digits: left fold with base ten. -/
def ofDigits (t : List Char) : Nat := t.foldl (fun acc c => acc * 10 + digitVal c) 0

/-- Core of JavaScript `String.prototype.split` with a single-character
alternation pattern: returns the first (possibly empty) segment and the list
of remaining segments, one split at every delimiter occurrence. -/
def splitP (p : Char → Bool) : List Char → List Char × List (List Char)
  | [] => ([], [])
  | c :: cs =>
    let r := splitP p cs
    if p c then ([], r.1 :: r.2) else (c :: r.1, r.2)

/-- JavaScript `split` on single delimiter characters: every segment,
empty segments included, in order. -/
def splitAll (p : Char → Bool) (cs : List Char) : List (List Char) :=
  (splitP p cs).1 :: (splitP p cs).2

/-- `path.split(/\.|\[|\]/).filter(p => p !== '')` from `extractPath`:
split on each single delimiter and drop the empty segments. -/
def tokenize (path : List Char) : List (List Char) :=
  (splitAll isDelim path).filter (fun t => !t.isEmpty)

/-- Splitting on maximal runs of one or more delimiter characters, the
phrasing the spec uses for tokenization: skip leading delimiters, take a
maximal delimiter-free run as a token, and continue after it. -/
def splitRuns (p : Char → Bool) : List Char → List (List Char)
  | [] => []
  | c :: cs =>
    if p c then splitRuns p cs
    else (c :: cs.takeWhile (fun x => !p x)) :: splitRuns p (cs.dropWhile (fun x => !p x))
termination_by cs => cs.length
decreasing_by
  · simp
  · refine Nat.lt_succ_of_le ?_
    induction cs with
    | nil => simp [List.dropWhile]
    | cons d ds ih =>
      rw [List.dropWhile_cons]
      split
      · exact Nat.le_trans ih (Nat.le_succ _)
      · exact Nat.le_refl _

/-- `Array.isArray`. -/
def isArr : Json → Bool
  | Json.arr _ => true
  | _ => false

/-- `typeof v === 'object'` for a JSON value that is not `null` (the code
tests `current == null` first): true exactly on arrays and objects. -/
def isContainer : Json → Bool
  | Json.arr _ => true
  | Json.obj _ => true
  | _ => false

/-- Scalars that cannot be descended into: strings, numbers, booleans. -/
def isScalar : Json → Bool
  | Json.bool _ => true
  | Json.num _ => true
  | Json.str _ => true
  | _ => false

/-- Own-property lookup on an object's field list, first occurrence; an
object built by `JSON.parse` carries each key once. -/
def keyLookup (t : List Char) : List (List Char × Json) → Option Json
  | [] => none
  | (k, v) :: fs => if k = t then some v else keyLookup t fs

/-- A canonical array-index string: digits with no leading zero (`"0"`
itself allowed), the keys under which a JavaScript array holds elements. -/
def isIndexKey (t : List Char) : Bool :=
  digitsOnly t && (t == ['0'] || !(t.head? == some '0'))

/-- The JavaScript `in` operator on a parsed JSON value: own keys of an
object, and an array's element indices and its `length` property.
Properties inherited from `Object.prototype` and `Array.prototype` are host
functions outside the JSON data model and are not modelled. -/
def jsIn (t : List Char) : Json → Bool
  | Json.obj fs => (keyLookup t fs).isSome
  | Json.arr xs => t == ['l', 'e', 'n', 'g', 't', 'h'] || (isIndexKey t && ofDigits t < xs.length)
  | _ => false

/-- Property read `current[part]` on a container, used after `part in
current` has answered true: an object's own key's value, an array's
element, or an array's `length` as a number. -/
def jsGet (t : List Char) : Json → Option Json
  | Json.obj fs => keyLookup t fs
  | Json.arr xs =>
    if t == ['l', 'e', 'n', 'g', 't', 'h'] then some (Json.num (Int.ofNat xs.length))
    else xs[ofDigits t]?
  | _ => none

/-- Array read `current[parseInt(part)]`: the element when the index is in
range, `undefined` (`none`) otherwise. -/
def arrGet : Json → Nat → Option Json
  | Json.arr xs, i => xs[i]?
  | _, _ => none

/-- The token loop of `extractPath` (src/index.js lines 129-140).  The
state is `Option Json`: `none` is JavaScript `undefined`.  Each token:
return `undefined` when the current value is `null`/`undefined`; index when
the current value is an array and the token is all digits; read a present
property of an object or array otherwise; else return `undefined`.  After
the last token the current value is returned as is. -/
def extractGo : Option Json → List (List Char) → Option Json
  | cur, [] => cur
  | none, _ :: _ => none
  | some Json.null, _ :: _ => none
  | some cur, part :: rest =>
    if isArr cur && digitsOnly part then extractGo (arrGet cur (ofDigits part)) rest
    else if isContainer cur && jsIn part cur then extractGo (jsGet part cur) rest
    else none

/-- `extractPath(obj, path)` (src/index.js lines 125-143): tokenize the
path and fold the token loop from the parsed value.  `none` is the
NotFound sentinel (`undefined`). -/
def extractPath (v : Json) (path : List Char) : Option Json :=
  extractGo (some v) (tokenize path)

/-- The `in` operator as the host evaluates it: applied to a non-object it
throws a `TypeError`.  In `extractPath` the `typeof current === 'object'`
conjunct short-circuits, so the throwing case is never reached. -/
def jsInE (t : List Char) (v : Json) : Except (List Char) Bool :=
  match v with
  | Json.arr _ => Except.ok (jsIn t v)
  | Json.obj _ => Except.ok (jsIn t v)
  | _ => Except.error ['T', 'y', 'p', 'e', 'E', 'r', 'r', 'o', 'r']

/-- The token loop again, with the one partial host operation (`in`) given
its throwing semantics and the `&&` short-circuit made explicit.  An
`Except.error` would be a thrown exception escaping `extractPath`. -/
def extractGoE : Option Json → List (List Char) → Except (List Char) (Option Json)
  | cur, [] => Except.ok cur
  | none, _ :: _ => Except.ok none
  | some Json.null, _ :: _ => Except.ok none
  | some cur, part :: rest =>
    if isArr cur && digitsOnly part then extractGoE (arrGet cur (ofDigits part)) rest
    else
      match (if isContainer cur then jsInE part cur else Except.ok false) with
      | Except.error e => Except.error e
      | Except.ok b => if b then extractGoE (jsGet part cur) rest else Except.ok none

/-- `extractPath` with exception-faithful semantics. -/
def extractPathE (v : Json) (path : List Char) : Except (List Char) (Option Json) :=
  extractGoE (some v) (tokenize path)

/-- The lines of the input text, `str.split('\n')`. -/
def jsLines (text : List Char) : List (List Char) :=
  splitAll (fun c => c = '\n') text

/-- The line/column search loop of `safeParse` (src/index.js lines 38-45):
walk the lines accumulating `chars`, and at the first line where
`chars + line.length >= position` report that line's 1-based index and
column `position - chars + 1`; `none` when the loop exhausts the lines. -/
def findLineCol : List (List Char) → Nat → Nat → Nat → Option (Nat × Nat)
  | [], _, _, _ => none
  | l :: ls, position, chars, i =>
    if position ≤ chars + l.length then some (i + 1, position - chars + 1)
    else findLineCol ls position (chars + l.length + 1) (i + 1)

/-- Line and column reported for a failure offset: the loop's answer, or
the initial values `line = 1, col = 1` when no line satisfies the test. -/
def computeLineCol (text : List Char) (position : Nat) : Nat × Nat :=
  (findLineCol (jsLines text) position 0 0).getD (1, 1)

/-- Number of newline characters among the first `o` characters of the
text: the manual count a reader would make to find the failure line. -/
def newlinesBefore (text : List Char) (o : Nat) : Nat :=
  ((text.take o).filter (fun c => c = '\n')).length

/-- Number of characters after the last newline among the first `o`
characters: the manual count of the failure column (minus one). -/
def colBefore (text : List Char) (o : Nat) : Nat :=
  ((text.take o).reverse.takeWhile (fun c => c ≠ '\n')).length

/-- The regex attempt `/position (\d+)/` anchored at the head of the
message: the literal `position ` followed by at least one digit, whose
maximal digit run is the captured offset. -/
def matchPosAt (cs : List Char) : Option Nat :=
  if ['p', 'o', 's', 'i', 't', 'i', 'o', 'n', ' '].isPrefixOf cs then
    let digs := (cs.drop 9).takeWhile Char.isDigit
    if digs.isEmpty then none else some (ofDigits digs)
  else none

/-- `err.message.match(/position (\d+)/)`: the leftmost match of the
pattern anywhere in the message, `none` when the message has no
`position <digits>` substring. -/
def matchPosition : List Char → Option Nat
  | [] => none
  | c :: cs =>
    match matchPosAt (c :: cs) with
    | some n => some n
    | none => matchPosition cs

/-- `msg.split('JSON at position')[0]`: the part of the message before the
first occurrence of the marker, or the whole message when absent. -/
def cutAtMarker (marker : List Char) : List Char → List Char
  | [] => []
  | c :: cs => if marker.isPrefixOf (c :: cs) then [] else c :: cutAtMarker marker cs

/-- The character for a decimal digit value. -/
def digitChar (n : Nat) : Char :=
  match n with
  | 0 => '0' | 1 => '1' | 2 => '2' | 3 => '3' | 4 => '4'
  | 5 => '5' | 6 => '6' | 7 => '7' | 8 => '8' | _ => '9'

/-- The lowercase character for a hexadecimal digit value, as the host
writes `\u00XX` escapes. -/
def hexDigitChar (n : Nat) : Char :=
  match n with
  | 0 => '0' | 1 => '1' | 2 => '2' | 3 => '3' | 4 => '4'
  | 5 => '5' | 6 => '6' | 7 => '7' | 8 => '8' | 9 => '9'
  | 10 => 'a' | 11 => 'b' | 12 => 'c' | 13 => 'd' | 14 => 'e' | _ => 'f'

/-- Decimal digits of a natural number, most significant first. -/
def natDigits (n : Nat) : List Char :=
  if _h : n < 10 then [digitChar n]
  else natDigits (n / 10) ++ [digitChar (n % 10)]
decreasing_by exact Nat.div_lt_self (by omega) (by omega)

/-- Decimal rendering of an integer, `String(n)` for an integer number. -/
def intChars (n : Int) : List Char :=
  if n < 0 then '-' :: natDigits (-n).toNat else natDigits n.toNat

/-- The composed diagnostic of `safeParse` (src/index.js lines 50-58): the
raw message cut before `JSON at position`, the offending line, a caret
under the column, and the fixed remediation hints. -/
def buildDiagnostic (text msg : List Char) (position : Nat) : List Char :=
  let lc := computeLineCol text position
  let errorLine := ((jsLines text).drop (lc.1 - 1)).headD []
  let caret := List.replicate (lc.2 - 1) ' ' ++ ['^']
  cutAtMarker "JSON at position".toList msg ++
    '\n' :: "   Line ".toList ++ natDigits lc.1 ++ ':' :: ' ' :: errorLine ++
    '\n' :: "            ".toList ++ caret ++
    "\n\n💡 Common fixes:\n   - Check for trailing commas\n   - Ensure quotes around keys and string values\n   - Verify brackets and braces are balanced".toList

/-- The catch block of `safeParse`: when the raw message carries a numeric
offset, replace it with the located diagnostic; otherwise rethrow the raw
message unchanged. -/
def diagnose (text msg : List Char) : List Char :=
  match matchPosition msg with
  | some position => buildDiagnostic text msg position
  | none => msg

/-- `safeParse` (src/index.js lines 28-62) over an arbitrary underlying
parser `P` standing for the host `JSON.parse`: a successful parse is
returned as is; a failure's message passes through the catch block. -/
def safeParseMsg (P : List Char → Except (List Char) Json) (s : List Char) :
    Except (List Char) Json :=
  match P s with
  | Except.ok v => Except.ok v
  | Except.error msg => Except.error (diagnose s msg)

/-- Numeric value of a hexadecimal digit character, either case. -/
def hexVal (c : Char) : Option Nat :=
  if c.isDigit then some (c.toNat - 48)
  else if 'a' ≤ c && c ≤ 'f' then some (c.toNat - 87)
  else if 'A' ≤ c && c ≤ 'F' then some (c.toNat - 55)
  else none

/-- Modelled from the spec: how the host serializer writes one character
inside a string literal (standard escapes): `"` and `\` are escaped,
the five short control escapes are used where they exist, any other
control character becomes a `\u00XX` escape, and every other character is
written as itself. -/
def escapeChar (c : Char) : List Char :=
  if c = '"' then ['\\', '"']
  else if c = '\\' then ['\\', '\\']
  else if c = '\n' then ['\\', 'n']
  else if c = '\t' then ['\\', 't']
  else if c = '\r' then ['\\', 'r']
  else if c.toNat = 8 then ['\\', 'b']
  else if c.toNat = 12 then ['\\', 'f']
  else if c.toNat < 32 then
    ['\\', 'u', '0', '0', hexDigitChar (c.toNat / 16), hexDigitChar (c.toNat % 16)]
  else [c]

/-- The body of a serialized string literal: each character escaped. -/
def escapeString : List Char → List Char
  | [] => []
  | c :: cs => escapeChar c ++ escapeString cs

/-- The indentation for nesting depth `d` under a 2-space indent. -/
def sp (d : Nat) : List Char := List.replicate (2 * d) ' '

mutual

/-- Modelled from the spec: `JSON.stringify(value, null, 2)` at nesting
depth `d` — the standard indented serialization the tool prints when color
is disabled (src/index.js lines 250-252).  Empty containers render as
`[]`/`\x7b\x7d` with no newline; nonempty containers render multi-line with
two spaces per nesting level; object keys keep insertion order. -/
def stringifyVal : Json → Nat → List Char
  | Json.null, _ => ['n', 'u', 'l', 'l']
  | Json.bool true, _ => ['t', 'r', 'u', 'e']
  | Json.bool false, _ => ['f', 'a', 'l', 's', 'e']
  | Json.num n, _ => intChars n
  | Json.str s, _ => '"' :: escapeString s ++ ['"']
  | Json.arr [], _ => ['[', ']']
  | Json.arr (x :: xs), d =>
    '[' :: '\n' :: sp (d + 1) ++ stringifyItems (x :: xs) (d + 1) ++ '\n' :: sp d ++ [']']
  | Json.obj [], _ => ['\x7b', '\x7d']
  | Json.obj (f :: fs), d =>
    '\x7b' :: '\n' :: sp (d + 1) ++ stringifyMembers (f :: fs) (d + 1) ++ '\n' :: sp d ++ ['\x7d']

/-- The serialized items of a nonempty array, separated by `,`, a newline
and the indentation of depth `d`. -/
def stringifyItems : List Json → Nat → List Char
  | [], _ => []
  | [x], d => stringifyVal x d
  | x :: y :: xs, d =>
    stringifyVal x d ++ ',' :: '\n' :: sp d ++ stringifyItems (y :: xs) d

/-- The serialized members of a nonempty object: quoted key, `: `, value,
separated like array items. -/
def stringifyMembers : List (List Char × Json) → Nat → List Char
  | [], _ => []
  | [(k, v)], d => '"' :: escapeString k ++ '"' :: ':' :: ' ' :: stringifyVal v d
  | (k, v) :: m :: ms, d =>
    '"' :: escapeString k ++ '"' :: ':' :: ' ' :: stringifyVal v d ++
      ',' :: '\n' :: sp d ++ stringifyMembers (m :: ms) d

end

/-- The color-disabled formatter output: 2-space indented serialization of
the whole value. -/
def jsonStringify (v : Json) : List Char := stringifyVal v 0

/-- JSON whitespace. -/
def isWs (c : Char) : Bool := c = ' ' || c = '\n' || c = '\t' || c = '\r'

/-- Skip leading JSON whitespace. -/
def skipWs (cs : List Char) : List Char := cs.dropWhile isWs

/-- Prefix a character onto the string being accumulated by the string
literal reader. -/
def consF (c : Char) :
    Except (List Char) (List Char × List Char) → Except (List Char) (List Char × List Char)
  | Except.ok (s, r) => Except.ok (c :: s, r)
  | Except.error e => Except.error e

/-- Modelled from the spec: the standard string-literal body grammar after
the opening quote — plain characters up to the closing quote rejecting raw
control characters, the standard short escapes, and `\uXXXX` with four hex
digits.  A `\uXXXX` escape in the UTF-16 surrogate range denotes no scalar
value and is not modelled. -/
def parseStringBody : List Char → Except (List Char) (List Char × List Char)
  | [] => Except.error ['e', 'o', 's']
  | c :: cs =>
    if c = '"' then Except.ok ([], cs)
    else if c = '\\' then
      match cs with
      | [] => Except.error ['e', 'o', 's']
      | e :: cs1 =>
        if e = '"' then consF '"' (parseStringBody cs1)
        else if e = '\\' then consF '\\' (parseStringBody cs1)
        else if e = '/' then consF '/' (parseStringBody cs1)
        else if e = 'b' then consF (Char.ofNat 8) (parseStringBody cs1)
        else if e = 'f' then consF (Char.ofNat 12) (parseStringBody cs1)
        else if e = 'n' then consF '\n' (parseStringBody cs1)
        else if e = 'r' then consF '\r' (parseStringBody cs1)
        else if e = 't' then consF '\t' (parseStringBody cs1)
        else if e = 'u' then
          match cs1 with
          | h1 :: h2 :: h3 :: h4 :: cs2 =>
            match hexVal h1, hexVal h2, hexVal h3, hexVal h4 with
            | some a, some b, some c2, some d =>
              let n := ((a * 16 + b) * 16 + c2) * 16 + d
              if n < 55296 || 57343 < n then consF (Char.ofNat n) (parseStringBody cs2)
              else Except.error ['s', 'u', 'r']
            | _, _, _, _ => Except.error ['h', 'e', 'x']
          | _ => Except.error ['e', 'o', 's']
        else Except.error ['e', 's', 'c']
    else if c.toNat < 32 then Except.error ['c', 't', 'l']
    else consF c (parseStringBody cs)

/-- The digit run of a number literal: nonempty, no leading zero unless
the number is exactly `0`, read in base ten. -/
def parseNatDigits (cs : List Char) : Except (List Char) (Nat × List Char) :=
  let digs := cs.takeWhile Char.isDigit
  if digs.isEmpty then Except.error ['n', 'u', 'm']
  else if 1 < digs.length && digs.head? == some '0' then Except.error ['z', 'e', 'r', 'o']
  else Except.ok (ofDigits digs, cs.dropWhile Char.isDigit)

/-- Modelled from the spec: the number production restricted to integer
numerals (optional minus and a digit run without a leading zero); fraction
and exponent parts concern the host's floating-point numbers, which are
outside the embedding. -/
def parseNumber (cs : List Char) : Except (List Char) (Json × List Char) :=
  if cs.head? = some '-' then
    match parseNatDigits cs.tail with
    | Except.ok (n, r) => Except.ok (Json.num (-(n : Int)), r)
    | Except.error e => Except.error e
  else
    match parseNatDigits cs with
    | Except.ok (n, r) => Except.ok (Json.num (n : Int), r)
    | Except.error e => Except.error e

/-- Read the tail of a fixed literal (`null`, `true`, `false`). -/
def matchLit : List Char → Json → List Char → Except (List Char) (Json × List Char)
  | [], v, cs => Except.ok (v, cs)
  | _ :: _, _, [] => Except.error ['l', 'i', 't']
  | l :: lit, v, c :: cs1 =>
    if c = l then matchLit lit v cs1 else Except.error ['l', 'i', 't']

mutual

/-- Modelled from the spec: the value production of the standard JSON
grammar (the reference parser `JSON.parse` delegates to), reading one
value after optional whitespace and returning the unread suffix.  The
`fuel` argument only bounds nesting recursion; `jsonParse` supplies more
than any input can use. -/
def parseValue : Nat → List Char → Except (List Char) (Json × List Char)
  | 0, _ => Except.error ['f', 'u', 'e', 'l']
  | fuel + 1, cs0 =>
    match skipWs cs0 with
    | [] => Except.error ['e', 'o', 's']
    | c :: r =>
      if c = 'n' then matchLit ['u', 'l', 'l'] Json.null r
      else if c = 't' then matchLit ['r', 'u', 'e'] (Json.bool true) r
      else if c = 'f' then matchLit ['a', 'l', 's', 'e'] (Json.bool false) r
      else if c = '"' then
        match parseStringBody r with
        | Except.ok (s, r1) => Except.ok (Json.str s, r1)
        | Except.error e => Except.error e
      else if c = '[' then
        let r1 := skipWs r
        if r1.head? = some ']' then Except.ok (Json.arr [], r1.tail)
        else
          match parseItems fuel r1 with
          | Except.ok (xs, r2) => Except.ok (Json.arr xs, r2)
          | Except.error e => Except.error e
      else if c = '\x7b' then
        let r1 := skipWs r
        if r1.head? = some '\x7d' then Except.ok (Json.obj [], r1.tail)
        else
          match parseMembers fuel r1 with
          | Except.ok (fs, r2) => Except.ok (Json.obj fs, r2)
          | Except.error e => Except.error e
      else if c = '-' || c.isDigit then parseNumber (c :: r)
      else Except.error ['t', 'o', 'k']

/-- The items of a nonempty array: a value, then either `,` and further
items or the closing `]`. -/
def parseItems : Nat → List Char → Except (List Char) (List Json × List Char)
  | 0, _ => Except.error ['f', 'u', 'e', 'l']
  | fuel + 1, cs =>
    match parseValue fuel cs with
    | Except.error e => Except.error e
    | Except.ok (v, r) =>
      let r1 := skipWs r
      if r1.head? = some ',' then
        match parseItems fuel r1.tail with
        | Except.ok (vs, r2) => Except.ok (v :: vs, r2)
        | Except.error e => Except.error e
      else if r1.head? = some ']' then Except.ok ([v], r1.tail)
      else Except.error ['a', 'r', 'r']

/-- The members of a nonempty object: a quoted key, `:`, a value, then
either `,` and further members or the closing brace.  Keys are collected
in reading order; the host's last-wins resolution of a repeated key is not
modelled. -/
def parseMembers : Nat → List Char → Except (List Char) (List (List Char × Json) × List Char)
  | 0, _ => Except.error ['f', 'u', 'e', 'l']
  | fuel + 1, cs =>
    let c0 := skipWs cs
    if c0.head? = some '"' then
      match parseStringBody c0.tail with
      | Except.error e => Except.error e
      | Except.ok (k, r1) =>
        let c1 := skipWs r1
        if c1.head? = some ':' then
          match parseValue fuel c1.tail with
          | Except.error e => Except.error e
          | Except.ok (v, r3) =>
            let c2 := skipWs r3
            if c2.head? = some ',' then
              match parseMembers fuel c2.tail with
              | Except.ok (fs, r5) => Except.ok ((k, v) :: fs, r5)
              | Except.error e => Except.error e
            else if c2.head? = some '\x7d' then Except.ok ([(k, v)], c2.tail)
            else Except.error ['o', 'b', 'j']
        else Except.error ['c', 'o', 'l']
    else Except.error ['k', 'e', 'y']

end

/-- Modelled from the spec: the reference standard-compliant JSON parser
standing for the host `JSON.parse` — one value surrounded by optional
whitespace and nothing else. -/
def jsonParse (cs : List Char) : Except (List Char) Json :=
  match parseValue (cs.length + 1) cs with
  | Except.error e => Except.error e
  | Except.ok (v, r) =>
    if (skipWs r).isEmpty then Except.ok v else Except.error ['t', 'r', 'l']

/-- `safeParse` of src/index.js with the modelled host parser underneath:
`JSON.parse(str)` returned on success, the catch block's diagnostic on
failure. -/
def safeParse (s : List Char) : Except (List Char) Json := safeParseMsg jsonParse s

mutual

/-- Fuel adequate for `parseValue` to read the serialization of a value:
one step for the value and, through the list measures, one step per item
or member of each container. -/
def jfuel : Json → Nat
  | Json.arr xs => 1 + itemsFuel xs
  | Json.obj fs => 1 + membersFuel fs
  | _ => 1

/-- Fuel adequate for `parseItems` on the given items. -/
def itemsFuel : List Json → Nat
  | [] => 1
  | x :: xs => 1 + jfuel x + itemsFuel xs

/-- Fuel adequate for `parseMembers` on the given members. -/
def membersFuel : List (List Char × Json) → Nat
  | [] => 1
  | (_, v) :: fs => 1 + jfuel v + membersFuel fs

end

/-! ## Character and tokenization helpers -/

theorem isDigit_ne (c d : Char) (h : c.isDigit = true) (hd : d.isDigit = false) : c ≠ d := by
  intro he
  subst he
  rw [h] at hd
  cases hd

theorem isWs_isDigit_false (c : Char) (h : isWs c = true) : c.isDigit = false := by
  simp only [isWs, Bool.or_eq_true, decide_eq_true_eq] at h
  rcases h with ((rfl | rfl) | rfl) | rfl <;> decide

theorem isDelim_false_of_isDigit (c : Char) (h : c.isDigit = true) : isDelim c = false := by
  have h1 := isDigit_ne c '.' h (by decide)
  have h2 := isDigit_ne c '[' h (by decide)
  have h3 := isDigit_ne c ']' h (by decide)
  simp [isDelim, h1, h2, h3]

theorem splitP_nodelim (p : Char → Bool) (cs : List Char) (h : ∀ c ∈ cs, p c = false) :
    splitP p cs = (cs, []) := by
  induction cs with
  | nil => rfl
  | cons c cs ih =>
    have hc : p c = false := h c (by simp)
    simp [splitP, hc, ih (fun x hx => h x (by simp [hx]))]

theorem tokenize_single (t : List Char) (hne : t ≠ []) (hd : ∀ c ∈ t, isDelim c = false) :
    tokenize t = [t] := by
  have hE : t.isEmpty = false := by
    cases t with
    | nil => exact absurd rfl hne
    | cons a as => rfl
  unfold tokenize splitAll
  rw [splitP_nodelim isDelim t hd]
  simp [List.filter, hE]

theorem digitsOnly_spec (t : List Char) (h : digitsOnly t = true) :
    t ≠ [] ∧ ∀ c ∈ t, c.isDigit = true := by
  simp only [digitsOnly, Bool.and_eq_true, Bool.not_eq_true', List.all_eq_true,
    decide_eq_true_eq] at h
  refine ⟨?_, h.2⟩
  cases t with
  | nil => simp at h
  | cons a as => simp

theorem extractGoE_eq (parts : List (List Char)) :
    ∀ cur : Option Json, extractGoE cur parts = Except.ok (extractGo cur parts) := by
  induction parts with
  | nil =>
    intro cur
    rcases cur with _ | v
    · rfl
    · cases v <;> rfl
  | cons t ts ih =>
    intro cur
    match cur with
    | none => rfl
    | some Json.null => rfl
    | some (Json.bool b) => simp [extractGoE, extractGo, isArr, isContainer, jsInE]
    | some (Json.num n) => simp [extractGoE, extractGo, isArr, isContainer, jsInE]
    | some (Json.str s) => simp [extractGoE, extractGo, isArr, isContainer, jsInE]
    | some (Json.arr xs) =>
      simp only [extractGoE, extractGo, isArr, isContainer, jsInE, Bool.true_and]
      by_cases h1 : digitsOnly t = true
      · simp [h1, ih]
      · simp only [h1, if_false, Bool.false_eq_true]
        by_cases h2 : jsIn t (Json.arr xs) = true
        · simp [h2, ih]
        · simp [h2]
    | some (Json.obj fs) =>
      simp only [extractGoE, extractGo, isArr, isContainer, jsInE, Bool.false_and, Bool.true_and]
      by_cases h2 : jsIn t (Json.obj fs) = true
      · simp [h2, ih]
      · simp [h2]

theorem splitP_all_delims (p : Char → Bool) (cs : List Char) (h : ∀ c ∈ cs, p c = true) :
    (splitP p cs).1 = [] ∧ ∀ t ∈ (splitP p cs).2, t = [] := by
  induction cs with
  | nil => exact ⟨rfl, by simp [splitP]⟩
  | cons c cs ih =>
    have hc := h c (by simp)
    obtain ⟨ih1, ih2⟩ := ih (fun x hx => h x (by simp [hx]))
    refine ⟨by simp [splitP, hc], ?_⟩
    simp only [splitP, hc, if_true]
    intro t ht
    rcases List.mem_cons.mp ht with rfl | ht2
    · exact ih1
    · exact ih2 t ht2

theorem tokenize_nil_of_all_delims (path : List Char) (h : ∀ c ∈ path, isDelim c = true) :
    tokenize path = [] := by
  obtain ⟨h1, h2⟩ := splitP_all_delims isDelim path h
  unfold tokenize splitAll
  rw [List.filter_eq_nil_iff]
  intro t ht
  rcases List.mem_cons.mp ht with rfl | ht2
  · simp [h1]
  · simp [h2 t ht2]

theorem dropWhile_length_le (q : Char → Bool) (cs : List Char) :
    (cs.dropWhile q).length ≤ cs.length := by
  induction cs with
  | nil => simp [List.dropWhile]
  | cons d ds ih =>
    rw [List.dropWhile_cons]
    split
    · exact Nat.le_trans ih (Nat.le_succ _)
    · exact Nat.le_refl _

theorem dropWhile_head_false (q : Char → Bool) (cs : List Char) :
    ∀ d rest, cs.dropWhile q = d :: rest → q d = false := by
  induction cs with
  | nil => intro d rest h; simp [List.dropWhile] at h
  | cons c cs ih =>
    intro d rest h
    rw [List.dropWhile_cons] at h
    by_cases hc : q c = true
    · rw [if_pos hc] at h
      exact ih d rest h
    · rw [if_neg hc] at h
      obtain ⟨rfl, -⟩ := List.cons.inj h
      exact Bool.not_eq_true _ ▸ Bool.of_not_eq_true hc

theorem splitP_fst_takeWhile (p : Char → Bool) (cs : List Char) :
    (splitP p cs).1 = cs.takeWhile (fun c => !p c) := by
  induction cs with
  | nil => rfl
  | cons c cs ih =>
    rw [List.takeWhile_cons]
    by_cases hc : p c
    · simp [splitP, hc]
    · simp [splitP, hc, ih]

theorem splitP_snd_of_dropWhile_nil (p : Char → Bool) (cs : List Char)
    (h : cs.dropWhile (fun c => !p c) = []) : (splitP p cs).2 = [] := by
  induction cs with
  | nil => rfl
  | cons c cs ih =>
    rw [List.dropWhile_cons] at h
    by_cases hc : p c
    · simp [hc] at h
    · simp only [hc, Bool.not_false, if_true, decide_False, Bool.not_eq_true] at h
      simp [splitP, hc, ih, h]

theorem splitP_snd_of_dropWhile_cons (p : Char → Bool) (cs : List Char) (d : Char)
    (rest : List Char) (h : cs.dropWhile (fun c => !p c) = d :: rest) :
    (splitP p cs).2 = splitAll p rest := by
  induction cs with
  | nil => simp [List.dropWhile] at h
  | cons c cs ih =>
    rw [List.dropWhile_cons] at h
    by_cases hc : p c
    · simp only [hc, Bool.not_true, if_false, Bool.false_eq_true] at h
      obtain ⟨rfl, rfl⟩ := List.cons.inj h
      simp [splitP, hc, splitAll]
    · simp only [hc, Bool.not_false, if_true, Bool.false_eq_true] at h
      simp [splitP, hc, ih h]

theorem filter_splitAll_eq_splitRuns (p : Char → Bool) (cs : List Char) :
    (splitAll p cs).filter (fun t => !t.isEmpty) = splitRuns p cs := by
  match cs with
  | [] => simp [splitAll, splitP, splitRuns, List.filter]
  | c :: cs' =>
    by_cases hc : p c
    · have ih := filter_splitAll_eq_splitRuns p cs'
      have hsa : splitAll p (c :: cs') = [] :: splitAll p cs' := by
        simp [splitAll, splitP, hc]
      rw [hsa, splitRuns, if_pos hc, List.filter_cons]
      simpa using ih
    · have hfst : (splitP p (c :: cs')).1 = c :: cs'.takeWhile (fun x => !p x) := by
        simp [splitP, hc, splitP_fst_takeWhile]
      cases hdrop : cs'.dropWhile (fun x => !p x) with
      | nil =>
        have hsnd : (splitP p (c :: cs')).2 = [] := by
          simp only [splitP, hc, if_false, Bool.false_eq_true]
          exact splitP_snd_of_dropWhile_nil p cs' hdrop
        rw [splitRuns, if_neg hc, hdrop, splitRuns]
        show List.filter _ ((splitP p (c :: cs')).1 :: (splitP p (c :: cs')).2) = _
        rw [hfst, hsnd]
        simp [List.filter]
      | cons d rest =>
        have hd : p d = true := by
          have := dropWhile_head_false (fun x => !p x) cs' d rest hdrop
          simpa using this
        have hsnd : (splitP p (c :: cs')).2 = splitAll p rest := by
          simp only [splitP, hc, if_false, Bool.false_eq_true]
          exact splitP_snd_of_dropWhile_cons p cs' d rest hdrop
        have ih := filter_splitAll_eq_splitRuns p rest
        rw [splitRuns, if_neg hc, hdrop, splitRuns, if_pos hd]
        show List.filter _ ((splitP p (c :: cs')).1 :: (splitP p (c :: cs')).2) = _
        rw [hfst, hsnd, List.filter_cons]
        simp only [List.isEmpty_cons, Bool.not_false, if_true]
        rw [ih]
termination_by cs.length
decreasing_by
  · simp
  · simp only [List.length_cons]
    have h1 : (d :: rest).length ≤ cs'.length := by
      rw [← hdrop]; exact dropWhile_length_le _ _
    simp only [List.length_cons] at h1
    omega

/-! ## Path extraction lemmas -/

theorem extractGo_none_of_ne_nil (parts : List (List Char)) (hp : parts ≠ []) :
    extractGo none parts = none := by
  cases parts with
  | nil => exact absurd rfl hp
  | cons t ts => rfl

theorem extractGo_null_of_ne_nil (parts : List (List Char)) (hp : parts ≠ []) :
    extractGo (some Json.null) parts = none := by
  cases parts with
  | nil => exact absurd rfl hp
  | cons t ts => rfl

theorem extractGo_scalar (v : Json) (hv : isScalar v = true) (parts : List (List Char))
    (hp : parts ≠ []) : extractGo (some v) parts = none := by
  cases parts with
  | nil => exact absurd rfl hp
  | cons t ts =>
    cases v with
    | bool b => simp [extractGo, isArr, isContainer]
    | num n => simp [extractGo, isArr, isContainer]
    | str s => simp [extractGo, isArr, isContainer]
    | null => simp [isScalar] at hv
    | arr xs => simp [isScalar] at hv
    | obj fs => simp [isScalar] at hv

theorem extract_obj_digit (fields : List (List Char × Json)) (t : List Char)
    (h : digitsOnly t = true) :
    extractPath (Json.obj fields) t = keyLookup t fields := by
  obtain ⟨hne, hdig⟩ := digitsOnly_spec t h
  rw [extractPath, tokenize_single t hne (fun c hc => isDelim_false_of_isDigit c (hdig c hc))]
  show extractGo (some (Json.obj fields)) [t] = keyLookup t fields
  simp only [extractGo, isArr, isContainer, jsIn, jsGet, Bool.false_and, Bool.true_and,
    if_false, Bool.false_eq_true]
  cases hk : keyLookup t fields with
  | none => simp [hk]
  | some v => simp [hk, extractGo]

theorem extract_arr_length (xs : List Json) :
    extractPath (Json.arr xs) ['l', 'e', 'n', 'g', 't', 'h'] =
      some (Json.num (Int.ofNat xs.length)) := by
  rw [extractPath, tokenize_single _ (by decide) (by decide)]
  simp [extractGo, isArr, isContainer, jsIn, jsGet, digitsOnly]

theorem extract_arr_absent (xs : List Json) :
    extractPath (Json.arr xs) ['f', 'o', 'o'] = none := by
  rw [extractPath, tokenize_single _ (by decide) (by decide)]
  simp [extractGo, isArr, isContainer, jsIn, jsGet, digitsOnly, isIndexKey]

/-! ## Claims about the path extractor -/

/-- C1 counterexample: the claim says a digit-only token on a mapping is
treated as an array index, making the key "0" of the object with field
"0" ↦ 5 unreachable and the extraction NotFound; on the code the array
branch requires `Array.isArray(current)`, so the token "0" is looked up as
an object key and the extraction finds 5. -/
theorem c1_counterexample :
    extractPath (Json.obj [(['0'], Json.num 5)]) ['0'] = some (Json.num 5) ∧
    extractPath (Json.obj [(['0'], Json.num 5)]) ['0'] ≠ none := by
  constructor
  · rfl
  · intro h
    cases h

/-- C1 (amended): when the current value is a mapping, a digit-only token
is looked up as an ordinary object key — the array-index interpretation
applies only when the current value is an array — so a mapping's
numeric-looking string key is reachable and extraction returns exactly what
own-key lookup returns. -/
theorem c1_digit_token_on_mapping_is_key_lookup (fields : List (List Char × Json))
    (t : List Char) (h : digitsOnly t = true) :
    extractPath (Json.obj fields) t = keyLookup t fields :=
  extract_obj_digit fields t h

/-- Witness for C1 (amended) at the object with field "0" ↦ 5 and
token "0". -/
theorem c1_digit_token_on_mapping_is_key_lookup_witness :
    extractPath (Json.obj [(['0'], Json.num 5)]) ['0'] =
      keyLookup ['0'] [(['0'], Json.num 5)] :=
  c1_digit_token_on_mapping_is_key_lookup [(['0'], Json.num 5)] ['0'] (by decide)

/-- C2 counterexample: the claim says an array with a non-digit token
always falls to the else case and yields NotFound, never descending via a
property name such as "length"; on the code `typeof current === 'object'`
holds for arrays and `"length" in current` is true, so the extraction of
"length" from [10, 20] returns the number 2 rather than NotFound. -/
theorem c2_counterexample :
    extractPath (Json.arr [Json.num 10, Json.num 20]) ['l', 'e', 'n', 'g', 't', 'h'] =
      some (Json.num 2) ∧
    extractPath (Json.arr [Json.num 10, Json.num 20]) ['l', 'e', 'n', 'g', 't', 'h'] ≠ none := by
  constructor
  · rfl
  · intro h
    cases h

/-- C2 (amended): a sequence is indexed by an all-digit token, and a
non-digit token falls to the object-property test, where an array's
"length" property is present: extracting "length" from a sequence returns
its element count, while a non-digit token that is not a property of the
array still yields NotFound. -/
theorem c2_sequence_property_tokens (xs : List Json) :
    extractPath (Json.arr xs) ['l', 'e', 'n', 'g', 't', 'h'] =
      some (Json.num (Int.ofNat xs.length)) ∧
    extractPath (Json.arr xs) ['f', 'o', 'o'] = none :=
  ⟨extract_arr_length xs, extract_arr_absent xs⟩

/-- C5: extraction is total and never throws — the run with
exception-faithful semantics returns `ok` of exactly what `extractPath`
returns, for every value and every path string, and that result is either
the NotFound sentinel or a JSON value. -/
theorem c5_extract_total_never_throws (v : Json) (path : List Char) :
    extractPathE v path = Except.ok (extractPath v path) ∧
    (extractPath v path = none ∨ ∃ r, extractPath v path = some r) := by
  refine ⟨extractGoE_eq (tokenize path) (some v), ?_⟩
  cases h : extractPath v path with
  | none => exact Or.inl rfl
  | some r => exact Or.inr ⟨r, rfl⟩

/-- C7: tokenization splits the path on single occurrences of the three
delimiters and drops empty segments; this equals splitting on maximal runs
of one or more delimiters, and "data.items[0].price" tokenizes to
["data", "items", "0", "price"]. -/
theorem c7_tokenization :
    (∀ path : List Char, tokenize path = splitRuns isDelim path) ∧
    tokenize "data.items[0].price".toList =
      ["data".toList, "items".toList, ['0'], "price".toList] := by
  constructor
  · intro path
    exact filter_splitAll_eq_splitRuns isDelim path
  · rfl

/-- C9: once a step fails to resolve, extraction returns NotFound
immediately and ignores every remaining token — when the current value is
absent (undefined), when it is JSON null, and when it is a scalar — and in
particular extracting "a.b.c" from the object with field "a" ↦ 1 is
NotFound. -/
theorem c9_short_circuit :
    (∀ parts : List (List Char), parts ≠ [] → extractGo none parts = none) ∧
    (∀ parts : List (List Char), parts ≠ [] → extractGo (some Json.null) parts = none) ∧
    (∀ (v : Json) (parts : List (List Char)), isScalar v = true → parts ≠ [] →
      extractGo (some v) parts = none) ∧
    extractPath (Json.obj [(['a'], Json.num 1)]) "a.b.c".toList = none := by
  refine ⟨extractGo_none_of_ne_nil, extractGo_null_of_ne_nil,
    fun v parts hv hp => extractGo_scalar v hv parts hp, rfl⟩

/-- Witness for C9 at the token list ["b"] and the scalar 1. -/
theorem c9_short_circuit_witness :
    extractGo none [['b']] = none ∧ extractGo (some (Json.num 1)) [['b']] = none := by
  constructor
  · exact c9_short_circuit.1 [['b']] (by decide)
  · exact c9_short_circuit.2.2.1 (Json.num 1) [['b']] (by decide) (by decide)

/-- C10: a path with no non-delimiter characters (empty, or made only of
the three delimiters) tokenizes to nothing, so extraction never descends
and returns the input value itself. -/
theorem c10_delimiter_only_path_is_identity (v : Json) (path : List Char)
    (h : ∀ c ∈ path, isDelim c = true) : extractPath v path = some v := by
  rw [extractPath, tokenize_nil_of_all_delims path h]
  cases v <;> rfl

/-- Witness for C10 at the value 7 and the path ".[].". -/
theorem c10_delimiter_only_path_is_identity_witness :
    extractPath (Json.num 7) ".[].".toList = some (Json.num 7) :=
  c10_delimiter_only_path_is_identity (Json.num 7) ".[].".toList (by decide)

/-! ## Line and column lemmas -/

theorem take_append_left (l X : List Char) (o : Nat) (h : o ≤ l.length) :
    (l ++ X).take o = l.take o := by
  induction l generalizing o with
  | nil =>
    simp only [List.length_nil, Nat.le_zero] at h
    subst h
    rfl
  | cons c cs ih =>
    cases o with
    | zero => rfl
    | succ o =>
      simp only [List.cons_append, List.take_succ_cons]
      rw [ih o (by simpa using h)]

theorem take_append_add (l X : List Char) (k : Nat) :
    (l ++ X).take (l.length + k) = l ++ X.take k := by
  induction l with
  | nil => simp
  | cons c cs ih =>
    simp only [List.cons_append, List.length_cons]
    have : cs.length + 1 + k = (cs.length + k) + 1 := by omega
    rw [this, List.take_succ_cons, ih]

theorem takeWhile_append_stop (q : Char → Bool) (xs ys : List Char) (c : Char)
    (hc : q c = false) : (xs ++ c :: ys).takeWhile q = xs.takeWhile q := by
  induction xs with
  | nil => simp [List.takeWhile_cons, hc]
  | cons x xs ih =>
    simp only [List.cons_append, List.takeWhile_cons]
    by_cases hx : q x
    · simp [hx, ih]
    · simp [hx]

theorem exists_first_delim (p : Char → Bool) (cs : List Char) :
    (∀ c ∈ cs, p c = false) ∨
      ∃ l d rest, (∀ c ∈ l, p c = false) ∧ p d = true ∧ cs = l ++ d :: rest := by
  induction cs with
  | nil => exact Or.inl (by simp)
  | cons c cs ih =>
    by_cases hc : p c = true
    · exact Or.inr ⟨[], c, cs, by simp, hc, rfl⟩
    · have hc' : p c = false := by simpa using hc
      rcases ih with hno | ⟨l, d, rest, hl, hd, rfl⟩
      · refine Or.inl ?_
        intro x hx
        rcases List.mem_cons.mp hx with rfl | hx2
        · exact hc'
        · exact hno x hx2
      · refine Or.inr ⟨c :: l, d, rest, ?_, hd, rfl⟩
        intro x hx
        rcases List.mem_cons.mp hx with rfl | hx2
        · exact hc'
        · exact hl x hx2

theorem splitP_append_delim (p : Char → Bool) (l : List Char) (d : Char) (rest : List Char)
    (hl : ∀ c ∈ l, p c = false) (hd : p d = true) :
    splitP p (l ++ d :: rest) = (l, splitAll p rest) := by
  induction l with
  | nil => simp [splitP, hd, splitAll]
  | cons c cs ih =>
    have hc : p c = false := hl c (by simp)
    simp only [List.cons_append, splitP, hc, Bool.false_eq_true, if_false, List.append_eq]
    rw [ih (fun x hx => hl x (by simp [hx]))]

theorem jsLines_no_nl (l : List Char) (h : ∀ c ∈ l, (c = '\n' : Bool) = false) :
    jsLines l = [l] := by
  unfold jsLines splitAll
  rw [splitP_nodelim _ l h]

theorem jsLines_split (l : List Char) (rest : List Char)
    (h : ∀ c ∈ l, (c = '\n' : Bool) = false) :
    jsLines (l ++ '\n' :: rest) = l :: jsLines rest := by
  unfold jsLines splitAll
  rw [splitP_append_delim _ l '\n' rest h (by decide)]
  rfl

theorem findLineCol_shift (ls : List (List Char)) :
    ∀ position chars i, chars ≤ position →
      findLineCol ls position chars i =
        (findLineCol ls (position - chars) 0 0).map (fun r => (r.1 + i, r.2)) := by
  induction ls with
  | nil => intro position chars i _; rfl
  | cons l ls ih =>
    intro position chars i h
    by_cases hc : position ≤ chars + l.length
    · rw [findLineCol, if_pos hc, findLineCol, if_pos (by omega)]
      refine congrArg some (Prod.ext ?_ ?_)
      · simp
        omega
      · simp
    · rw [findLineCol, if_neg hc, findLineCol, if_neg (by omega)]
      rw [ih position (chars + l.length + 1) (i + 1) (by omega)]
      rw [ih (position - chars) (0 + l.length + 1) (0 + 1) (by omega)]
      have harg : position - chars - (0 + l.length + 1) = position - (chars + l.length + 1) := by
        omega
      rw [harg]
      cases findLineCol ls (position - (chars + l.length + 1)) 0 0 with
      | none => rfl
      | some r =>
        simp only [Option.map_some', Option.some.injEq, Prod.mk.injEq]
        exact ⟨by omega, trivial⟩

theorem findLineCol_exhausted (ls : List (List Char)) :
    ∀ position chars i, chars + ((ls.map (fun l => l.length + 1)).sum) ≤ position →
      findLineCol ls position chars i = none := by
  induction ls with
  | nil => intro position chars i _; rfl
  | cons l ls ih =>
    intro position chars i h
    simp only [List.map_cons, List.sum_cons] at h
    rw [findLineCol, if_neg (by omega)]
    exact ih position (chars + l.length + 1) (i + 1) (by omega)

theorem jsLines_span (text : List Char) :
    (((jsLines text).map (fun l => l.length + 1)).sum) = text.length + 1 := by
  induction text with
  | nil => rfl
  | cons c cs ih =>
    by_cases hc : c = '\n'
    · subst hc
      have : jsLines ('\n' :: cs) = [] :: jsLines cs := by
        unfold jsLines splitAll
        simp [splitP]
      rw [this]
      simp only [List.map_cons, List.sum_cons, ih, List.length_nil, List.length_cons]
      omega
    · have hstep : jsLines (c :: cs) =
          (c :: (splitP (fun x => decide (x = '\n')) cs).1) ::
            (splitP (fun x => decide (x = '\n')) cs).2 := by
        unfold jsLines splitAll
        simp [splitP, hc]
      have hcs : jsLines cs =
          (splitP (fun x => decide (x = '\n')) cs).1 ::
            (splitP (fun x => decide (x = '\n')) cs).2 := rfl
      rw [hstep]
      rw [hcs] at ih
      simp only [List.map_cons, List.sum_cons, List.length_cons] at ih ⊢
      omega

theorem newlinesBefore_no_nl (l : List Char) (o : Nat)
    (h : ∀ c ∈ l, (c = '\n' : Bool) = false) : newlinesBefore l o = 0 := by
  unfold newlinesBefore
  rw [List.filter_eq_nil_iff.mpr (fun a ha => by
    have := h a (List.take_subset o l ha)
    simp [this])]
  rfl

theorem colBefore_no_nl (l : List Char) (o : Nat) (ho : o ≤ l.length)
    (h : ∀ c ∈ l, (c = '\n' : Bool) = false) : colBefore l o = o := by
  unfold colBefore
  rw [List.takeWhile_eq_self_iff.mpr (fun a ha => by
    have ha2 : a ∈ l := List.take_subset o l (List.mem_reverse.mp ha)
    have := h a ha2
    simp at this
    simp [this])]
  simp [List.length_take, Nat.min_eq_left ho]

theorem findLineCol_eq_manual (text : List Char) (o : Nat) (h : o ≤ text.length) :
    findLineCol (jsLines text) o 0 0 =
      some (newlinesBefore text o + 1, colBefore text o + 1) := by
  rcases exists_first_delim (fun c => decide (c = '\n')) text with hno | ⟨l, d, rest, hl, hd, heq⟩
  · rw [jsLines_no_nl text hno, findLineCol, if_pos (by simpa using h)]
    rw [newlinesBefore_no_nl text o hno, colBefore_no_nl text o h hno]
    simp
  · have hdnl : d = '\n' := by simpa using hd
    subst hdnl
    subst heq
    have hlen : (l ++ '\n' :: rest).length = l.length + 1 + rest.length := by
      simp [List.length_append]
      omega
    rw [jsLines_split l rest hl]
    by_cases ho : o ≤ l.length
    · rw [findLineCol, if_pos (by omega)]
      have ht : (l ++ '\n' :: rest).take o = l.take o := take_append_left l _ o ho
      have h1 : newlinesBefore (l ++ '\n' :: rest) o = 0 := by
        unfold newlinesBefore
        rw [ht]
        have h1b := newlinesBefore_no_nl l o hl
        unfold newlinesBefore at h1b
        exact h1b
      have h2 : colBefore (l ++ '\n' :: rest) o = o := by
        unfold colBefore
        rw [ht]
        have h2b := colBefore_no_nl l o ho hl
        unfold colBefore at h2b
        exact h2b
      rw [h1, h2]
      simp
    · rw [findLineCol, if_neg (by omega)]
      simp only [Nat.zero_add]
      rw [findLineCol_shift (jsLines rest) o (l.length + 1) 1 (by omega)]
      rw [findLineCol_eq_manual rest (o - (l.length + 1)) (by omega)]
      have htake : (l ++ '\n' :: rest).take o = l ++ '\n' :: rest.take (o - (l.length + 1)) := by
        have hk : o = l.length + (o - l.length) := by omega
        conv_lhs => rw [hk]
        rw [take_append_add]
        congr 1
        have hk2 : o - l.length = (o - (l.length + 1)) + 1 := by omega
        rw [hk2, List.take_succ_cons]
      have h1 : newlinesBefore (l ++ '\n' :: rest) o =
          newlinesBefore rest (o - (l.length + 1)) + 1 := by
        unfold newlinesBefore
        rw [htake, List.filter_append]
        have hfl : l.filter (fun c => decide (c = '\n')) = [] :=
          List.filter_eq_nil_iff.mpr (fun a ha => by simp [hl a ha])
        rw [hfl, List.filter_cons]
        simp
      have h2 : colBefore (l ++ '\n' :: rest) o = colBefore rest (o - (l.length + 1)) := by
        unfold colBefore
        rw [htake, List.reverse_append, List.reverse_cons, List.append_assoc,
          List.singleton_append]
        rw [takeWhile_append_stop _ _ _ '\n' (by decide)]
      rw [h1, h2]
      simp only [Option.map_some', Option.some.injEq, Prod.mk.injEq]
termination_by text.length
decreasing_by
  rw [heq]
  simp only [List.length_append, List.length_cons]
  omega

/-- C3: for a failure offset o within the text, the diagnostic's line and
column computed by the accumulate-per-line loop match manual counting —
the line is one plus the number of newlines among the first o characters,
and the column is one plus the number of characters after the last of
those newlines — and when no line satisfies the stopping test before the
lines are exhausted (o beyond the text), the line and column keep their
initial values 1. -/
theorem c3_line_col_matches_manual (text : List Char) (o : Nat) :
    (o ≤ text.length →
      computeLineCol text o = (newlinesBefore text o + 1, colBefore text o + 1)) ∧
    (text.length < o → computeLineCol text o = (1, 1)) := by
  constructor
  · intro h
    rw [computeLineCol, findLineCol_eq_manual text o h]
    rfl
  · intro h
    rw [computeLineCol, findLineCol_exhausted (jsLines text) o 0 0 (by rw [jsLines_span]; omega)]
    rfl

/-- Witness for C3: the offset 3 in "a\nbc" is line 2, column 2, matching
one newline before it and one character after that newline; the offset 5
beyond "ab" falls back to line 1, column 1. -/
theorem c3_line_col_matches_manual_witness :
    computeLineCol "a\nbc".toList 3 = (2, 2) ∧ computeLineCol "ab".toList 5 = (1, 1) := by
  constructor
  · rw [(c3_line_col_matches_manual "a\nbc".toList 3).1 (by decide)]
    rfl
  · exact (c3_line_col_matches_manual "ab".toList 5).2 (by decide)

/-- C8: when the underlying parser fails with a message in which the
pattern `position <digits>` does not occur, the wrapper rethrows that raw
message unchanged — no line rendering, caret, or remediation hints are
added. -/
theorem c8_no_offset_propagates_raw (P : List Char → Except (List Char) Json)
    (s msg : List Char) (hP : P s = Except.error msg)
    (hm : matchPosition msg = none) : safeParseMsg P s = Except.error msg := by
  simp [safeParseMsg, hP, diagnose, hm]

/-- Witness for C8 at a one-character message with no offset. -/
theorem c8_no_offset_propagates_raw_witness :
    safeParseMsg (fun _ => Except.error ['x']) [] = Except.error ['x'] :=
  c8_no_offset_propagates_raw (fun _ => Except.error ['x']) [] ['x'] rfl rfl

/-- C4: the wrapper returns a value exactly when the underlying reference
parser does, and it is the very value the reference parser produced — a
value is never fabricated for input the reference grammar rejects. -/
theorem c4_safeParse_agrees_with_reference (s : List Char) (v : Json) :
    safeParse s = Except.ok v ↔ jsonParse s = Except.ok v := by
  unfold safeParse safeParseMsg
  cases h : jsonParse s <;> simp

/-! ## Digit and number lemmas -/

theorem digitChar_isDigit (n : Nat) : (digitChar n).isDigit = true := by
  unfold digitChar
  split <;> decide

theorem digitVal_digitChar (n : Nat) (h : n < 10) : digitVal (digitChar n) = n := by
  interval_cases n <;> decide

theorem hexVal_hexDigitChar (n : Nat) (h : n < 16) : hexVal (hexDigitChar n) = some n := by
  interval_cases n <;> decide

theorem natDigits_ne_nil (n : Nat) : natDigits n ≠ [] := by
  unfold natDigits
  split
  · simp
  · simp

theorem natDigits_all_digits (n : Nat) : ∀ c ∈ natDigits n, c.isDigit = true := by
  unfold natDigits
  split
  · intro c hc
    rw [List.mem_singleton] at hc
    subst hc
    exact digitChar_isDigit n
  · intro c hc
    rcases List.mem_append.mp hc with h1 | h2
    · exact natDigits_all_digits (n / 10) c h1
    · rw [List.mem_singleton] at h2
      subst h2
      exact digitChar_isDigit (n % 10)
termination_by n
decreasing_by exact Nat.div_lt_self (by omega) (by omega)

theorem ofDigits_append (xs : List Char) (c : Char) :
    ofDigits (xs ++ [c]) = ofDigits xs * 10 + digitVal c := by
  unfold ofDigits
  rw [List.foldl_append]
  rfl

theorem ofDigits_natDigits (n : Nat) : ofDigits (natDigits n) = n := by
  unfold natDigits
  split
  · next h =>
    show ofDigits [digitChar n] = n
    have : ofDigits [digitChar n] = digitVal (digitChar n) := by
      unfold ofDigits
      simp
    rw [this, digitVal_digitChar n h]
  · next h =>
    rw [ofDigits_append, ofDigits_natDigits (n / 10), digitVal_digitChar (n % 10) (by omega)]
    omega
termination_by n
decreasing_by exact Nat.div_lt_self (by omega) (by omega)

theorem natDigits_zero : natDigits 0 = ['0'] := by
  unfold natDigits
  rfl

theorem natDigits_head_ne_zero (n : Nat) (h : 1 ≤ n) : (natDigits n).head? ≠ some '0' := by
  unfold natDigits
  split
  · next h10 =>
    intro hc
    simp only [List.head?_cons, Option.some.injEq] at hc
    interval_cases n <;> simp [digitChar] at hc
  · next h10 =>
    have hne := natDigits_ne_nil (n / 10)
    have ih := natDigits_head_ne_zero (n / 10) (by omega)
    cases hd : natDigits (n / 10) with
    | nil => exact absurd hd hne
    | cons a as =>
      rw [hd] at ih
      simp only [List.head?_cons, Option.some.injEq] at ih
      intro hc
      simp only [List.cons_append, List.head?_cons, Option.some.injEq] at hc
      exact ih (by rw [hc])
termination_by n
decreasing_by exact Nat.div_lt_self (by omega) (by omega)

theorem natDigits_no_leading_zero (n : Nat) :
    (1 < (natDigits n).length && (natDigits n).head? == some '0') = false := by
  rcases Nat.eq_zero_or_pos n with rfl | hpos
  · rw [natDigits_zero]
    rfl
  · have := natDigits_head_ne_zero n hpos
    simp only [Bool.and_eq_false_iff]
    right
    simpa using this

/-! ## Whitespace and token-boundary lemmas -/

theorem skipWs_cons_not_ws (c : Char) (r : List Char) (h : isWs c = false) :
    skipWs (c :: r) = c :: r := by
  unfold skipWs
  rw [List.dropWhile_cons, h]
  rfl

theorem skipWs_ws_append (w : List Char) (r : List Char) (h : ∀ c ∈ w, isWs c = true) :
    skipWs (w ++ r) = skipWs r := by
  induction w with
  | nil => rfl
  | cons c cs ih =>
    have hc := h c (by simp)
    show skipWs (c :: (cs ++ r)) = skipWs r
    unfold skipWs
    rw [List.dropWhile_cons, hc]
    exact ih (fun x hx => h x (by simp [hx]))

theorem sp_all_ws (d : Nat) : ∀ c ∈ sp d, isWs c = true := by
  intro c hc
  unfold sp at hc
  rw [List.eq_of_mem_replicate hc]
  decide

theorem takeWhile_digits_append (u rest : List Char) (hu : ∀ c ∈ u, c.isDigit = true)
    (hr : ∀ x, rest.head? = some x → x.isDigit = false) :
    (u ++ rest).takeWhile Char.isDigit = u ∧ (u ++ rest).dropWhile Char.isDigit = rest := by
  induction u with
  | nil =>
    cases rest with
    | nil => exact ⟨rfl, rfl⟩
    | cons x xs =>
      have hx := hr x rfl
      constructor
      · simp [List.takeWhile_cons, hx]
      · simp [List.dropWhile_cons, hx]
  | cons c cs ih =>
    have hc := hu c (by simp)
    obtain ⟨ih1, ih2⟩ := ih (fun x hx => hu x (by simp [hx]))
    constructor
    · simp [List.takeWhile_cons, hc, ih1]
    · simp [List.dropWhile_cons, hc, ih2]

theorem parseNatDigits_round (m : Nat) (rest : List Char)
    (hr : ∀ x, rest.head? = some x → x.isDigit = false) :
    parseNatDigits (natDigits m ++ rest) = Except.ok (m, rest) := by
  obtain ⟨ht, hd⟩ := takeWhile_digits_append (natDigits m) rest (natDigits_all_digits m) hr
  unfold parseNatDigits
  simp only [ht, hd]
  have hne : (natDigits m).isEmpty = false := by
    cases h : natDigits m with
    | nil => exact absurd h (natDigits_ne_nil m)
    | cons a as => rfl
  rw [if_neg (by simp [hne]), if_neg (by simp [natDigits_no_leading_zero m]), ofDigits_natDigits]

theorem parseNumber_round (n : Int) (rest : List Char)
    (hr : ∀ x, rest.head? = some x → x.isDigit = false) :
    parseNumber (intChars n ++ rest) = Except.ok (Json.num n, rest) := by
  by_cases hn : n < 0
  · rw [intChars, if_pos hn]
    unfold parseNumber
    rw [if_pos (by simp)]
    simp only [List.cons_append, List.tail_cons]
    rw [parseNatDigits_round (-n).toNat rest hr]
    show Except.ok (Json.num (-(((-n).toNat : Nat) : Int)), rest) = Except.ok (Json.num n, rest)
    rw [Int.toNat_of_nonneg (by omega : (0 : Int) ≤ -n), neg_neg]
  · rw [intChars, if_neg hn]
    cases hnd : natDigits n.toNat with
    | nil => exact absurd hnd (natDigits_ne_nil _)
    | cons dc ds =>
      have hdc : dc.isDigit = true := natDigits_all_digits n.toNat dc (by rw [hnd]; simp)
      unfold parseNumber
      rw [if_neg (by
        simp only [List.cons_append, List.head?_cons, Option.some.injEq]
        exact isDigit_ne dc '-' hdc (by decide))]
      rw [← hnd, parseNatDigits_round n.toNat rest hr]
      show Except.ok (Json.num ((n.toNat : Nat) : Int), rest) = Except.ok (Json.num n, rest)
      rw [Int.toNat_of_nonneg (by omega : (0 : Int) ≤ n)]

theorem pSB_quote (T : List Char) : parseStringBody ('"' :: T) = Except.ok ([], T) := by
  conv_lhs => rw [parseStringBody.eq_def]
  simp only [reduceIte]

theorem pSB_esc_quote (T : List Char) :
    parseStringBody ('\\' :: '"' :: T) = consF '"' (parseStringBody T) := by
  conv_lhs => rw [parseStringBody.eq_def]
  simp only [reduceIte]
  repeat rw [if_neg (by decide)]

theorem pSB_esc_back (T : List Char) :
    parseStringBody ('\\' :: '\\' :: T) = consF '\\' (parseStringBody T) := by
  conv_lhs => rw [parseStringBody.eq_def]
  simp only [reduceIte]
  repeat rw [if_neg (by decide)]

theorem pSB_esc_n (T : List Char) :
    parseStringBody ('\\' :: 'n' :: T) = consF '\n' (parseStringBody T) := by
  conv_lhs => rw [parseStringBody.eq_def]
  simp only [reduceIte]
  repeat rw [if_neg (by decide)]

theorem pSB_esc_t (T : List Char) :
    parseStringBody ('\\' :: 't' :: T) = consF '\t' (parseStringBody T) := by
  conv_lhs => rw [parseStringBody.eq_def]
  simp only [reduceIte]
  repeat rw [if_neg (by decide)]

theorem pSB_esc_r (T : List Char) :
    parseStringBody ('\\' :: 'r' :: T) = consF '\r' (parseStringBody T) := by
  conv_lhs => rw [parseStringBody.eq_def]
  simp only [reduceIte]
  repeat rw [if_neg (by decide)]

theorem pSB_esc_b (T : List Char) :
    parseStringBody ('\\' :: 'b' :: T) = consF (Char.ofNat 8) (parseStringBody T) := by
  conv_lhs => rw [parseStringBody.eq_def]
  simp only [reduceIte]
  repeat rw [if_neg (by decide)]

theorem pSB_esc_f (T : List Char) :
    parseStringBody ('\\' :: 'f' :: T) = consF (Char.ofNat 12) (parseStringBody T) := by
  conv_lhs => rw [parseStringBody.eq_def]
  simp only [reduceIte]
  repeat rw [if_neg (by decide)]

theorem pSB_esc_u (hi lo : Nat) (hhi : hi < 16) (hlo : lo < 16) (hv : hi * 16 + lo < 55296)
    (T : List Char) :
    parseStringBody ('\\' :: 'u' :: '0' :: '0' :: hexDigitChar hi :: hexDigitChar lo :: T) =
      consF (Char.ofNat (hi * 16 + lo)) (parseStringBody T) := by
  conv_lhs => rw [parseStringBody.eq_def]
  simp only [reduceIte]
  repeat rw [if_neg (by decide)]
  simp only [hexVal_hexDigitChar hi hhi, hexVal_hexDigitChar lo hlo,
    show hexVal '0' = some 0 by decide]
  have harith : ((0 * 16 + 0) * 16 + hi) * 16 + lo = hi * 16 + lo := by omega
  simp only [harith]
  rw [if_pos (by simp [hv])]

theorem pSB_raw (c : Char) (T : List Char) (h1 : ¬c = '"') (h2 : ¬c = '\\')
    (h8 : ¬c.toNat < 32) : parseStringBody (c :: T) = consF c (parseStringBody T) := by
  conv_lhs => rw [parseStringBody.eq_def]
  simp only [if_neg h1, if_neg h2, if_neg h8]

theorem parseStringBody_round (s : List Char) (rest : List Char) :
    parseStringBody (escapeString s ++ '"' :: rest) = Except.ok (s, rest) := by
  induction s with
  | nil => exact pSB_quote rest
  | cons c cs ih =>
    rw [show escapeString (c :: cs) = escapeChar c ++ escapeString cs from rfl,
      List.append_assoc]
    unfold escapeChar
    by_cases h1 : c = '"'
    · subst h1
      rw [if_pos rfl]
      show parseStringBody ('\\' :: '"' :: (escapeString cs ++ '"' :: rest)) = _
      rw [pSB_esc_quote, ih]
      rfl
    · rw [if_neg h1]
      by_cases h2 : c = '\\'
      · subst h2
        rw [if_pos rfl]
        show parseStringBody ('\\' :: '\\' :: (escapeString cs ++ '"' :: rest)) = _
        rw [pSB_esc_back, ih]
        rfl
      · rw [if_neg h2]
        by_cases h3 : c = '\n'
        · subst h3
          rw [if_pos rfl]
          show parseStringBody ('\\' :: 'n' :: (escapeString cs ++ '"' :: rest)) = _
          rw [pSB_esc_n, ih]
          rfl
        · rw [if_neg h3]
          by_cases h4 : c = '\t'
          · subst h4
            rw [if_pos rfl]
            show parseStringBody ('\\' :: 't' :: (escapeString cs ++ '"' :: rest)) = _
            rw [pSB_esc_t, ih]
            rfl
          · rw [if_neg h4]
            by_cases h5 : c = '\r'
            · subst h5
              rw [if_pos rfl]
              show parseStringBody ('\\' :: 'r' :: (escapeString cs ++ '"' :: rest)) = _
              rw [pSB_esc_r, ih]
              rfl
            · rw [if_neg h5]
              by_cases h6 : c.toNat = 8
              · rw [if_pos h6]
                show parseStringBody ('\\' :: 'b' :: (escapeString cs ++ '"' :: rest)) = _
                rw [pSB_esc_b, ih]
                show Except.ok (Char.ofNat 8 :: cs, rest) = _
                rw [← h6, Char.ofNat_toNat]
              · rw [if_neg h6]
                by_cases h7 : c.toNat = 12
                · rw [if_pos h7]
                  show parseStringBody ('\\' :: 'f' :: (escapeString cs ++ '"' :: rest)) = _
                  rw [pSB_esc_f, ih]
                  show Except.ok (Char.ofNat 12 :: cs, rest) = _
                  rw [← h7, Char.ofNat_toNat]
                · rw [if_neg h7]
                  by_cases h8 : c.toNat < 32
                  · rw [if_pos h8]
                    show parseStringBody ('\\' :: 'u' :: '0' :: '0' :: hexDigitChar (c.toNat / 16)
                      :: hexDigitChar (c.toNat % 16) :: (escapeString cs ++ '"' :: rest)) = _
                    rw [pSB_esc_u (c.toNat / 16) (c.toNat % 16) (by omega) (by omega) (by omega),
                      ih]
                    show Except.ok (Char.ofNat (c.toNat / 16 * 16 + c.toNat % 16) :: cs, rest) = _
                    have : c.toNat / 16 * 16 + c.toNat % 16 = c.toNat := by omega
                    rw [this, Char.ofNat_toNat]
                  · rw [if_neg h8]
                    show parseStringBody (c :: (escapeString cs ++ '"' :: rest)) = _
                    rw [pSB_raw c _ h1 h2 h8, ih]
                    rfl

/-! ## Serialization shape lemmas -/

theorem isWs_false_of_isDigit (c : Char) (h : c.isDigit = true) : isWs c = false := by
  cases hw : isWs c with
  | false => rfl
  | true => rw [isWs_isDigit_false c hw] at h; cases h

theorem stringifyVal_head (v : Json) (d : Nat) :
    ∃ c t, stringifyVal v d = c :: t ∧ isWs c = false ∧ c ≠ ']' ∧ c ≠ '\x7d' := by
  cases v with
  | null => exact ⟨'n', ['u', 'l', 'l'], by simp [stringifyVal], by decide, by decide, by decide⟩
  | bool b =>
    cases b with
    | true => exact ⟨'t', ['r', 'u', 'e'], by simp [stringifyVal], by decide, by decide, by decide⟩
    | false => exact ⟨'f', ['a', 'l', 's', 'e'], by simp [stringifyVal], by decide, by decide, by decide⟩
  | num n =>
    by_cases hn : n < 0
    · refine ⟨'-', natDigits (-n).toNat, ?_, by decide, by decide, by decide⟩
      simp [stringifyVal, intChars, hn]
    · cases hnd : natDigits n.toNat with
      | nil => exact absurd hnd (natDigits_ne_nil _)
      | cons dc ds =>
        have hdc : dc.isDigit = true := natDigits_all_digits n.toNat dc (by rw [hnd]; simp)
        refine ⟨dc, ds, ?_, isWs_false_of_isDigit dc hdc,
          isDigit_ne dc ']' hdc (by decide), isDigit_ne dc '\x7d' hdc (by decide)⟩
        simp [stringifyVal, intChars, hn, hnd]
  | str s => exact ⟨'"', escapeString s ++ ['"'], by simp [stringifyVal], by decide, by decide, by decide⟩
  | arr items =>
    cases items with
    | nil => exact ⟨'[', [']'], by simp [stringifyVal], by decide, by decide, by decide⟩
    | cons x xs => exact ⟨'[', '\n' :: (sp (d + 1) ++ (stringifyItems (x :: xs) (d + 1) ++ '\n' :: (sp d ++ [']']))), by simp [stringifyVal], by decide, by decide, by decide⟩
  | obj fs =>
    cases fs with
    | nil => exact ⟨'\x7b', ['\x7d'], by simp [stringifyVal], by decide, by decide, by decide⟩
    | cons f fs' => exact ⟨'\x7b', '\n' :: (sp (d + 1) ++ (stringifyMembers (f :: fs') (d + 1) ++ '\n' :: (sp d ++ ['\x7d']))), by simp [stringifyVal], by decide, by decide, by decide⟩

theorem stringifyItems_cons (x : Json) (xs : List Json) (d : Nat) :
    ∃ u, stringifyItems (x :: xs) d = stringifyVal x d ++ u := by
  cases xs with
  | nil => exact ⟨[], by simp [stringifyItems]⟩
  | cons y ys =>
    exact ⟨',' :: '\n' :: (sp d ++ stringifyItems (y :: ys) d), by simp [stringifyItems]⟩

theorem stringifyMembers_head (m : List Char × Json) (ms : List (List Char × Json)) (d : Nat) :
    ∃ t, stringifyMembers (m :: ms) d = '"' :: t := by
  obtain ⟨k, v⟩ := m
  cases ms with
  | nil => exact ⟨escapeString k ++ '"' :: ':' :: ' ' :: stringifyVal v d, by simp [stringifyMembers]⟩
  | cons m2 ms' =>
    exact ⟨escapeString k ++ '"' :: ':' :: ' ' :: stringifyVal v d ++
      ',' :: '\n' :: (sp d ++ stringifyMembers (m2 :: ms') d), by simp [stringifyMembers]⟩

theorem jfuel_pos (v : Json) : 1 ≤ jfuel v := by
  cases v <;> simp [jfuel]

theorem itemsFuel_pos (xs : List Json) : 1 ≤ itemsFuel xs := by
  cases xs with
  | nil => simp [itemsFuel]
  | cons x xs =>
    have := jfuel_pos x
    simp [itemsFuel]
    omega

theorem membersFuel_pos (ms : List (List Char × Json)) : 1 ≤ membersFuel ms := by
  cases ms with
  | nil => simp [membersFuel]
  | cons m ms =>
    obtain ⟨k, v⟩ := m
    have := jfuel_pos v
    simp [membersFuel]
    omega

theorem parseValue_ws (fuel : Nat) (w cs : List Char) (hw : ∀ c ∈ w, isWs c = true) :
    parseValue fuel (w ++ cs) = parseValue fuel cs := by
  cases fuel with
  | zero => simp only [parseValue]
  | succ fuel =>
    simp only [parseValue]
    rw [skipWs_ws_append w cs hw]

theorem head_not_digit_of_ws_or_close (w1 rest : List Char) (b : Char)
    (hw1 : ∀ c ∈ w1, isWs c = true) (hb : b.isDigit = false) :
    ∀ x, (w1 ++ b :: rest).head? = some x → x.isDigit = false := by
  intro x hx
  cases w1 with
  | nil =>
    simp only [List.nil_append, List.head?_cons, Option.some.injEq] at hx
    subst hx
    exact hb
  | cons a w1' =>
    simp only [List.cons_append, List.head?_cons, Option.some.injEq] at hx
    subst hx
    exact isWs_isDigit_false _ (hw1 _ (by simp))

theorem matchLit_round (lit : List Char) (v : Json) (rest : List Char) :
    matchLit lit v (lit ++ rest) = Except.ok (v, rest) := by
  induction lit with
  | nil => rfl
  | cons l ls ih =>
    show matchLit (l :: ls) v (l :: (ls ++ rest)) = Except.ok (v, rest)
    unfold matchLit
    rw [if_pos rfl]
    exact ih

theorem parseValue_cons (fuel : Nat) (c : Char) (r : List Char) (hnw : isWs c = false) :
    parseValue (fuel + 1) (c :: r) =
      (if c = 'n' then matchLit ['u', 'l', 'l'] Json.null r
       else if c = 't' then matchLit ['r', 'u', 'e'] (Json.bool true) r
       else if c = 'f' then matchLit ['a', 'l', 's', 'e'] (Json.bool false) r
       else if c = '"' then
         match parseStringBody r with
         | Except.ok (s, r1) => Except.ok (Json.str s, r1)
         | Except.error e => Except.error e
       else if c = '[' then
         if (skipWs r).head? = some ']' then Except.ok (Json.arr [], (skipWs r).tail)
         else
           match parseItems fuel (skipWs r) with
           | Except.ok (xs, r2) => Except.ok (Json.arr xs, r2)
           | Except.error e => Except.error e
       else if c = '\x7b' then
         if (skipWs r).head? = some '\x7d' then Except.ok (Json.obj [], (skipWs r).tail)
         else
           match parseMembers fuel (skipWs r) with
           | Except.ok (fs, r2) => Except.ok (Json.obj fs, r2)
           | Except.error e => Except.error e
       else if c = '-' || c.isDigit then parseNumber (c :: r)
       else Except.error ['t', 'o', 'k']) := by
  simp only [parseValue]
  rw [skipWs_cons_not_ws c r hnw]

theorem parseItems_step (fuel : Nat) (cs : List Char) :
    parseItems (fuel + 1) cs =
      (match parseValue fuel cs with
       | Except.error e => Except.error e
       | Except.ok (v, r) =>
         if (skipWs r).head? = some ',' then
           match parseItems fuel (skipWs r).tail with
           | Except.ok (vs, r2) => Except.ok (v :: vs, r2)
           | Except.error e => Except.error e
         else if (skipWs r).head? = some ']' then Except.ok ([v], (skipWs r).tail)
         else Except.error ['a', 'r', 'r']) := by
  simp only [parseItems]

theorem parseMembers_step (fuel : Nat) (cs : List Char) :
    parseMembers (fuel + 1) cs =
      (if (skipWs cs).head? = some '"' then
        match parseStringBody (skipWs cs).tail with
        | Except.error e => Except.error e
        | Except.ok (k, r1) =>
          if (skipWs r1).head? = some ':' then
            match parseValue fuel (skipWs r1).tail with
            | Except.error e => Except.error e
            | Except.ok (v, r3) =>
              if (skipWs r3).head? = some ',' then
                match parseMembers fuel (skipWs r3).tail with
                | Except.ok (fs, r5) => Except.ok ((k, v) :: fs, r5)
                | Except.error e => Except.error e
              else if (skipWs r3).head? = some '\x7d' then Except.ok ([(k, v)], (skipWs r3).tail)
              else Except.error ['o', 'b', 'j']
          else Except.error ['c', 'o', 'l']
      else Except.error ['k', 'e', 'y']) := by
  simp only [parseMembers]

theorem parse_print (fuel : Nat) :
    (∀ (v : Json) (d : Nat) (rest : List Char), jfuel v ≤ fuel →
      (∀ x, rest.head? = some x → x.isDigit = false) →
      parseValue fuel (stringifyVal v d ++ rest) = Except.ok (v, rest)) ∧
    (∀ (xs : List Json) (d : Nat) (w w1 rest : List Char), itemsFuel xs ≤ fuel → xs ≠ [] →
      (∀ c ∈ w, isWs c = true) → (∀ c ∈ w1, isWs c = true) →
      parseItems fuel (w ++ (stringifyItems xs d ++ (w1 ++ ']' :: rest))) =
        Except.ok (xs, rest)) ∧
    (∀ (ms : List (List Char × Json)) (d : Nat) (w w1 rest : List Char),
      membersFuel ms ≤ fuel → ms ≠ [] →
      (∀ c ∈ w, isWs c = true) → (∀ c ∈ w1, isWs c = true) →
      parseMembers fuel (w ++ (stringifyMembers ms d ++ (w1 ++ '\x7d' :: rest))) =
        Except.ok (ms, rest)) := by
  induction fuel with
  | zero =>
    refine ⟨?_, ?_, ?_⟩
    · intro v _ _ hf _
      exact absurd hf (by have := jfuel_pos v; omega)
    · intro xs _ _ _ _ hf _ _ _
      exact absurd hf (by have := itemsFuel_pos xs; omega)
    · intro ms _ _ _ _ hf _ _ _
      exact absurd hf (by have := membersFuel_pos ms; omega)
  | succ fuel ih =>
    obtain ⟨ihV, ihI, ihM⟩ := ih
    refine ⟨?_, ?_, ?_⟩
    · intro v d rest hf hrest
      cases v with
      | null =>
        rw [show stringifyVal Json.null d ++ rest = 'n' :: ('u' :: 'l' :: 'l' :: rest) from by
          simp [stringifyVal]]
        rw [parseValue_cons fuel 'n' _ (by decide), if_pos rfl]
        exact matchLit_round ['u', 'l', 'l'] Json.null rest
      | bool b =>
        cases b with
        | true =>
          rw [show stringifyVal (Json.bool true) d ++ rest =
            't' :: ('r' :: 'u' :: 'e' :: rest) from by simp [stringifyVal]]
          rw [parseValue_cons fuel 't' _ (by decide), if_neg (by decide), if_pos rfl]
          exact matchLit_round ['r', 'u', 'e'] (Json.bool true) rest
        | false =>
          rw [show stringifyVal (Json.bool false) d ++ rest =
            'f' :: ('a' :: 'l' :: 's' :: 'e' :: rest) from by simp [stringifyVal]]
          rw [parseValue_cons fuel 'f' _ (by decide), if_neg (by decide), if_neg (by decide),
            if_pos rfl]
          exact matchLit_round ['a', 'l', 's', 'e'] (Json.bool false) rest
      | num n =>
        by_cases hn : n < 0
        · rw [show stringifyVal (Json.num n) d ++ rest =
            '-' :: (natDigits (-n).toNat ++ rest) from by simp [stringifyVal, intChars, hn]]
          rw [parseValue_cons fuel '-' _ (by decide), if_neg (by decide), if_neg (by decide),
            if_neg (by decide), if_neg (by decide), if_neg (by decide), if_neg (by decide),
            if_pos (by decide)]
          rw [show '-' :: (natDigits (-n).toNat ++ rest) = intChars n ++ rest from by
            simp [intChars, hn]]
          exact parseNumber_round n rest hrest
        · cases hnd : natDigits n.toNat with
          | nil => exact absurd hnd (natDigits_ne_nil _)
          | cons dc ds =>
            have hdc : dc.isDigit = true := natDigits_all_digits n.toNat dc (by rw [hnd]; simp)
            rw [show stringifyVal (Json.num n) d ++ rest = dc :: (ds ++ rest) from by
              simp [stringifyVal, intChars, hn, hnd]]
            rw [parseValue_cons fuel dc _ (isWs_false_of_isDigit dc hdc),
              if_neg (isDigit_ne dc 'n' hdc (by decide)),
              if_neg (isDigit_ne dc 't' hdc (by decide)),
              if_neg (isDigit_ne dc 'f' hdc (by decide)),
              if_neg (isDigit_ne dc '"' hdc (by decide)),
              if_neg (isDigit_ne dc '[' hdc (by decide)),
              if_neg (isDigit_ne dc '\x7b' hdc (by decide)),
              if_pos (by simp [hdc])]
            rw [show dc :: (ds ++ rest) = intChars n ++ rest from by
              simp [intChars, hn, hnd]]
            exact parseNumber_round n rest hrest
      | str s =>
        rw [show stringifyVal (Json.str s) d ++ rest =
          '"' :: (escapeString s ++ '"' :: rest) from by simp [stringifyVal]]
        rw [parseValue_cons fuel '"' _ (by decide), if_neg (by decide), if_neg (by decide),
          if_neg (by decide), if_pos rfl]
        rw [parseStringBody_round s rest]
      | arr items =>
        cases items with
        | nil =>
          rw [show stringifyVal (Json.arr []) d ++ rest = '[' :: (']' :: rest) from by
            simp [stringifyVal]]
          rw [parseValue_cons fuel '[' _ (by decide), if_neg (by decide), if_neg (by decide),
            if_neg (by decide), if_neg (by decide), if_pos rfl]
          rw [skipWs_cons_not_ws _ _ (by decide),
            if_pos (show ((']' :: rest).head? = some ']') from rfl)]
          rfl
        | cons x xs =>
          have hfx : itemsFuel (x :: xs) ≤ fuel := by
            simp only [jfuel] at hf
            omega
          rw [show stringifyVal (Json.arr (x :: xs)) d ++ rest =
            '[' :: (('\n' :: sp (d + 1)) ++ (stringifyItems (x :: xs) (d + 1) ++
              (('\n' :: sp d) ++ ']' :: rest))) from by simp [stringifyVal]]
          rw [parseValue_cons fuel '[' _ (by decide), if_neg (by decide), if_neg (by decide),
            if_neg (by decide), if_neg (by decide), if_pos rfl]
          rw [skipWs_ws_append _ _ (by
            intro c hcmem
            rcases List.mem_cons.mp hcmem with rfl | hsp
            · decide
            · exact sp_all_ws (d + 1) c hsp)]
          obtain ⟨u, hu⟩ := stringifyItems_cons x xs (d + 1)
          obtain ⟨hc, ht, hcons, hws, hnb, hnbr⟩ := stringifyVal_head x (d + 1)
          rw [show stringifyItems (x :: xs) (d + 1) ++ (('\n' :: sp d) ++ ']' :: rest) =
            hc :: (ht ++ (u ++ (('\n' :: sp d) ++ ']' :: rest))) from by
            rw [hu, hcons]; simp]
          rw [skipWs_cons_not_ws _ _ hws]
          rw [if_neg (by simp [hnb])]
          rw [show hc :: (ht ++ (u ++ (('\n' :: sp d) ++ ']' :: rest))) =
            [] ++ (stringifyItems (x :: xs) (d + 1) ++ (('\n' :: sp d) ++ ']' :: rest)) from by
            rw [hu, hcons]; simp]
          rw [ihI (x :: xs) (d + 1) [] ('\n' :: sp d) rest hfx (by simp) (by simp)
            (by
              intro c hcmem
              rcases List.mem_cons.mp hcmem with rfl | hsp
              · decide
              · exact sp_all_ws d c hsp)]
      | obj fs =>
        cases fs with
        | nil =>
          rw [show stringifyVal (Json.obj []) d ++ rest = '\x7b' :: ('\x7d' :: rest) from by
            simp [stringifyVal]]
          rw [parseValue_cons fuel '\x7b' _ (by decide), if_neg (by decide), if_neg (by decide),
            if_neg (by decide), if_neg (by decide), if_neg (by decide), if_pos rfl]
          rw [skipWs_cons_not_ws _ _ (by decide),
            if_pos (show (('\x7d' :: rest).head? = some '\x7d') from rfl)]
          rfl
        | cons m ms =>
          have hfm : membersFuel (m :: ms) ≤ fuel := by
            simp only [jfuel] at hf
            omega
          rw [show stringifyVal (Json.obj (m :: ms)) d ++ rest =
            '\x7b' :: (('\n' :: sp (d + 1)) ++ (stringifyMembers (m :: ms) (d + 1) ++
              (('\n' :: sp d) ++ '\x7d' :: rest))) from by simp [stringifyVal]]
          rw [parseValue_cons fuel '\x7b' _ (by decide), if_neg (by decide), if_neg (by decide),
            if_neg (by decide), if_neg (by decide), if_neg (by decide), if_pos rfl]
          rw [skipWs_ws_append _ _ (by
            intro c hcmem
            rcases List.mem_cons.mp hcmem with rfl | hsp
            · decide
            · exact sp_all_ws (d + 1) c hsp)]
          obtain ⟨kt, hkt⟩ := stringifyMembers_head m ms (d + 1)
          rw [show stringifyMembers (m :: ms) (d + 1) ++ (('\n' :: sp d) ++ '\x7d' :: rest) =
            '"' :: (kt ++ (('\n' :: sp d) ++ '\x7d' :: rest)) from by rw [hkt]; simp]
          rw [skipWs_cons_not_ws _ _ (by decide)]
          rw [if_neg (by simp)]
          rw [show ('"' : Char) :: (kt ++ (('\n' :: sp d) ++ '\x7d' :: rest)) =
            [] ++ (stringifyMembers (m :: ms) (d + 1) ++ (('\n' :: sp d) ++ '\x7d' :: rest))
            from by rw [hkt]; simp]
          rw [ihM (m :: ms) (d + 1) [] ('\n' :: sp d) rest hfm (by simp) (by simp)
            (by
              intro c hcmem
              rcases List.mem_cons.mp hcmem with rfl | hsp
              · decide
              · exact sp_all_ws d c hsp)]
    · intro xs d w w1 rest hf hne hw hw1
      cases xs with
      | nil => exact absurd rfl hne
      | cons x xs2 =>
        cases xs2 with
        | nil =>
          have hval := ihV x d (w1 ++ ']' :: rest)
            (by simp only [itemsFuel] at hf; omega)
            (head_not_digit_of_ws_or_close w1 rest ']' hw1 (by decide))
          rw [show w ++ (stringifyItems [x] d ++ (w1 ++ ']' :: rest)) =
            w ++ (stringifyVal x d ++ (w1 ++ ']' :: rest)) from by simp [stringifyItems]]
          rw [parseItems_step, parseValue_ws fuel w _ hw, hval]
          simp only [skipWs_ws_append w1 (']' :: rest) hw1,
            skipWs_cons_not_ws ']' rest (by decide), List.head?_cons, List.tail_cons,
            Option.some.injEq, reduceCtorEq, if_false, if_true, reduceIte]
          rw [if_neg (by decide)]
        | cons y ys =>
          have hval := ihV x d
            (',' :: '\n' :: (sp d ++ (stringifyItems (y :: ys) d ++ (w1 ++ ']' :: rest))))
            (by simp only [itemsFuel] at hf; omega)
            (by intro z hz; simp only [List.head?_cons, Option.some.injEq] at hz; subst hz; decide)
          have hitems := ihI (y :: ys) d ('\n' :: sp d) w1 rest
            (by simp only [itemsFuel] at hf ⊢; have := jfuel_pos x; omega)
            (by simp) (by
              intro c hcmem
              rcases List.mem_cons.mp hcmem with rfl | hsp
              · decide
              · exact sp_all_ws d c hsp) hw1
          rw [List.cons_append] at hitems
          rw [show w ++ (stringifyItems (x :: y :: ys) d ++ (w1 ++ ']' :: rest)) =
            w ++ (stringifyVal x d ++ (',' :: '\n' :: (sp d ++ (stringifyItems (y :: ys) d ++
              (w1 ++ ']' :: rest))))) from by simp [stringifyItems]]
          rw [parseItems_step, parseValue_ws fuel w _ hw, hval]
          simp only [skipWs_cons_not_ws ',' _ (by decide), List.head?_cons, List.tail_cons,
            Option.some.injEq, reduceCtorEq, if_false, if_true, reduceIte, hitems]
    · intro ms d w w1 rest hf hne hw hw1
      cases ms with
      | nil => exact absurd rfl hne
      | cons m ms2 =>
        obtain ⟨k, v⟩ := m
        cases ms2 with
        | nil =>
          have hval := ihV v d (w1 ++ '\x7d' :: rest)
            (by simp only [membersFuel] at hf; omega)
            (head_not_digit_of_ws_or_close w1 rest '\x7d' hw1 (by decide))
          have hval2 : parseValue fuel (' ' :: (stringifyVal v d ++ (w1 ++ '\x7d' :: rest))) =
              Except.ok (v, w1 ++ '\x7d' :: rest) := by
            have hws := parseValue_ws fuel [' ']
              (stringifyVal v d ++ (w1 ++ '\x7d' :: rest)) (by decide)
            simp only [List.cons_append, List.nil_append] at hws
            exact hws.trans hval
          rw [show w ++ (stringifyMembers [(k, v)] d ++ (w1 ++ '\x7d' :: rest)) =
            w ++ ('"' :: (escapeString k ++ '"' :: (':' :: (' ' :: (stringifyVal v d ++
              (w1 ++ '\x7d' :: rest)))))) from by simp [stringifyMembers]]
          rw [parseMembers_step, skipWs_ws_append w _ hw, skipWs_cons_not_ws '"' _ (by decide)]
          rw [if_pos (show (('"' : Char) :: (escapeString k ++ '"' :: (':' :: (' ' ::
            (stringifyVal v d ++ (w1 ++ '\x7d' :: rest)))))).head? = some '"' from rfl)]
          rw [show (('"' : Char) :: (escapeString k ++ '"' :: (':' :: (' ' ::
            (stringifyVal v d ++ (w1 ++ '\x7d' :: rest)))))).tail =
            escapeString k ++ '"' :: (':' :: (' ' :: (stringifyVal v d ++
              (w1 ++ '\x7d' :: rest)))) from rfl]
          rw [parseStringBody_round k _]
          simp only [skipWs_cons_not_ws ':' _ (by decide), List.head?_cons, List.tail_cons,
            Option.some.injEq, reduceCtorEq, if_false, if_true, reduceIte, hval2,
            skipWs_ws_append w1 ('\x7d' :: rest) hw1,
            skipWs_cons_not_ws '\x7d' rest (by decide)]
          rw [if_neg (by decide)]
        | cons m2 ms3 =>
          obtain ⟨k2, v2⟩ := m2
          have hval := ihV v d
            (',' :: '\n' :: (sp d ++ (stringifyMembers ((k2, v2) :: ms3) d ++
              (w1 ++ '\x7d' :: rest))))
            (by simp only [membersFuel] at hf; omega)
            (by intro z hz; simp only [List.head?_cons, Option.some.injEq] at hz; subst hz; decide)
          have hval2 : parseValue fuel (' ' :: (stringifyVal v d ++ (',' :: '\n' :: (sp d ++
              (stringifyMembers ((k2, v2) :: ms3) d ++ (w1 ++ '\x7d' :: rest)))))) =
              Except.ok (v, ',' :: '\n' :: (sp d ++ (stringifyMembers ((k2, v2) :: ms3) d ++
                (w1 ++ '\x7d' :: rest)))) := by
            have hws := parseValue_ws fuel [' '] (stringifyVal v d ++ (',' :: '\n' :: (sp d ++
              (stringifyMembers ((k2, v2) :: ms3) d ++ (w1 ++ '\x7d' :: rest))))) (by decide)
            simp only [List.cons_append, List.nil_append] at hws
            exact hws.trans hval
          have hmem := ihM ((k2, v2) :: ms3) d ('\n' :: sp d) w1 rest
            (by simp only [membersFuel] at hf ⊢; have := jfuel_pos v; omega)
            (by simp) (by
              intro c hcmem
              rcases List.mem_cons.mp hcmem with rfl | hsp
              · decide
              · exact sp_all_ws d c hsp) hw1
          rw [List.cons_append] at hmem
          rw [show w ++ (stringifyMembers ((k, v) :: (k2, v2) :: ms3) d ++
            (w1 ++ '\x7d' :: rest)) = w ++ ('"' :: (escapeString k ++ '"' :: (':' :: (' ' ::
              (stringifyVal v d ++ (',' :: '\n' :: (sp d ++ (stringifyMembers ((k2, v2) :: ms3) d
                ++ (w1 ++ '\x7d' :: rest))))))))) from by simp [stringifyMembers]]
          rw [parseMembers_step, skipWs_ws_append w _ hw, skipWs_cons_not_ws '"' _ (by decide)]
          rw [if_pos (show (('"' : Char) :: (escapeString k ++ '"' :: (':' :: (' ' ::
            (stringifyVal v d ++ (',' :: '\n' :: (sp d ++ (stringifyMembers ((k2, v2) :: ms3) d
              ++ (w1 ++ '\x7d' :: rest))))))))).head? = some '"' from rfl)]
          rw [show (('"' : Char) :: (escapeString k ++ '"' :: (':' :: (' ' ::
            (stringifyVal v d ++ (',' :: '\n' :: (sp d ++ (stringifyMembers ((k2, v2) :: ms3) d
              ++ (w1 ++ '\x7d' :: rest))))))))).tail = escapeString k ++ '"' :: (':' :: (' ' ::
            (stringifyVal v d ++ (',' :: '\n' :: (sp d ++ (stringifyMembers ((k2, v2) :: ms3) d
              ++ (w1 ++ '\x7d' :: rest))))))) from rfl]
          rw [parseStringBody_round k _]
          simp only [skipWs_cons_not_ws ':' _ (by decide), List.head?_cons, List.tail_cons,
            Option.some.injEq, reduceCtorEq, if_false, if_true, reduceIte, hval2,
            skipWs_cons_not_ws ',' _ (by decide), hmem]

mutual

theorem jfuel_le_print (v : Json) : ∀ d, jfuel v ≤ (stringifyVal v d).length := by
  intro d
  cases v with
  | null => simp [jfuel, stringifyVal]
  | bool b => cases b <;> simp [jfuel, stringifyVal]
  | num n =>
    simp only [jfuel, stringifyVal, intChars]
    by_cases hn : n < 0
    · simp [hn]
    · rw [if_neg hn]
      cases hd : natDigits n.toNat with
      | nil => exact absurd hd (natDigits_ne_nil _)
      | cons a as => simp
  | str s => simp [jfuel, stringifyVal]
  | arr xs =>
    cases xs with
    | nil => simp [jfuel, stringifyVal, itemsFuel]
    | cons x xs2 =>
      have h := itemsFuel_le_print (x :: xs2) (d + 1)
      simp only [jfuel, stringifyVal]
      simp only [List.length_cons, List.length_append, sp, List.length_replicate]
      omega
  | obj fs =>
    cases fs with
    | nil => simp [jfuel, stringifyVal, membersFuel]
    | cons m fs2 =>
      have h := membersFuel_le_print (m :: fs2) (d + 1)
      simp only [jfuel, stringifyVal]
      simp only [List.length_cons, List.length_append, sp, List.length_replicate]
      omega

theorem itemsFuel_le_print (xs : List Json) :
    ∀ d, itemsFuel xs ≤ (stringifyItems xs d).length + 2 := by
  intro d
  cases xs with
  | nil => simp [itemsFuel, stringifyItems]
  | cons x xs2 =>
    cases xs2 with
    | nil =>
      have h := jfuel_le_print x d
      simp only [itemsFuel, stringifyItems]
      omega
    | cons y ys =>
      have h1 := jfuel_le_print x d
      have h2 := itemsFuel_le_print (y :: ys) d
      simp only [itemsFuel] at h2
      simp only [itemsFuel, stringifyItems]
      simp only [List.length_append, List.length_cons, sp, List.length_replicate]
      omega

theorem membersFuel_le_print (ms : List (List Char × Json)) :
    ∀ d, membersFuel ms ≤ (stringifyMembers ms d).length + 2 := by
  intro d
  cases ms with
  | nil => simp [membersFuel, stringifyMembers]
  | cons m ms2 =>
    obtain ⟨k, v⟩ := m
    cases ms2 with
    | nil =>
      have h := jfuel_le_print v d
      simp only [membersFuel, stringifyMembers]
      simp only [List.length_append, List.length_cons]
      omega
    | cons m2 ms3 =>
      have h1 := jfuel_le_print v d
      have h2 := membersFuel_le_print (m2 :: ms3) d
      simp only [membersFuel] at h2
      simp only [membersFuel, stringifyMembers]
      simp only [List.length_append, List.length_cons, sp, List.length_replicate]
      omega

end

/-- C6: serializing any JSON value with the color-disabled 2-space
indented formatter and re-parsing the text yields the original value —
parse of stringify is the identity, so values produced by parsing survive
a format/re-parse round trip structurally unchanged. -/
theorem c6_format_parse_roundtrip (v : Json) :
    safeParse (jsonStringify v) = Except.ok v := by
  have hb := jfuel_le_print v 0
  have hmain := (parse_print ((stringifyVal v 0).length + 1)).1 v 0 [] (by omega) (by simp)
  rw [List.append_nil] at hmain
  unfold safeParse safeParseMsg jsonParse jsonStringify
  rw [hmain]
  rfl
